import Mathlib

/-!
Formal model of the fair vehicle selector (repository `fair-vehicle-selector`).

The definitions below are a shallow embedding of the selection core in
`src/vehicle_management.py`: the usage dictionary (`update_usage`, lines 8-16),
the automatic selection algorithm (`select_vehicles_auto`, lines 18-37), the
manual-selection branch and the undo handler of `vehicle_management`
(lines 101-105 and 194-217).  Python dictionaries are modelled as association
lists in insertion order; the float usage ratio `used/present` is modelled as
the exact rational `mkRat used present` (for equal real quotients the float
division is correctly rounded to the same double, so equality and the
comparisons the claims need coincide); Python's `range(n)` loop becomes fuel
recursion on `n.toNat`.
-/

/-- One value of the usage dictionary: `{"used": .., "present": ..}`. -/
structure UsageRec where
  used : Nat
  present : Nat
deriving DecidableEq

/-- The usage dictionary `usage : dict[str, {"used","present"}]`, in insertion order. -/
abbrev UsageMap := List (String × UsageRec)

/-- Dictionary lookup: the value stored for key `p`, if any. -/
def lookupRec (usage : UsageMap) (p : String) : Option UsageRec :=
  (usage.find? (fun e => e.1 == p)).map (fun e => e.2)

/-- `usage.get(p, {"used":0,"present":0})` -- lookup with the zero default. -/
def getRec (usage : UsageMap) (p : String) : UsageRec :=
  (lookupRec usage p).getD ⟨0, 0⟩

/-- `p in usage` -- key membership test. -/
def hasKey (usage : UsageMap) (p : String) : Bool :=
  usage.any (fun e => e.1 == p)

/-- `if p not in usage: usage[p] = {"used":0,"present":0}` -- insert the zero
record for a missing key (Python dicts append new keys at the end). -/
def ensureKey (usage : UsageMap) (p : String) : UsageMap :=
  if hasKey usage p then usage else usage ++ [(p, ⟨0, 0⟩)]

/-- In-place update of the record stored under key `p`. -/
def updAt (usage : UsageMap) (p : String) (f : UsageRec → UsageRec) : UsageMap :=
  usage.map (fun e => if e.1 == p then (e.1, f e.2) else e)

/-- `usage[p]["used"] += 1` (the key `p` is present when this runs). -/
def bumpUsed (usage : UsageMap) (p : String) : UsageMap :=
  updAt usage p (fun r => ⟨r.used + 1, r.present⟩)

/-- `usage[p]["present"] += 1` (the key `p` is present when this runs). -/
def bumpPresent (usage : UsageMap) (p : String) : UsageMap :=
  updAt usage p (fun r => ⟨r.used, r.present + 1⟩)

/-- Embeds `update_usage` (src/vehicle_management.py lines 8-16): increment
`used` for every selected player and `present` for every eligible player,
inserting zero records for unknown keys first. -/
def update_usage (selected_players eligible_players : List String) (usage : UsageMap) :
    UsageMap :=
  eligible_players.foldl (fun acc p => bumpPresent (ensureKey acc p) p)
    (selected_players.foldl (fun acc p => bumpUsed (ensureKey acc p) p) usage)

/-- Embeds `usage_ratio` (src/vehicle_management.py lines 24-26):
`u["used"]/u["present"] if u["present"]>0 else 0`, on the defaulted record. -/
def usage_ratio (usage : UsageMap) (p : String) : ℚ :=
  let u := getRec usage p
  if u.present > 0 then mkRat u.used u.present else 0

/-- The sort key of line 27: the pair `(usage_ratio(p), vehicle_set.index(p))`,
compared lexicographically as Python compares tuples. -/
def keyLe (vehicle_set : List String) (usage : UsageMap) (p q : String) : Prop :=
  usage_ratio usage p < usage_ratio usage q ∨
    (usage_ratio usage p = usage_ratio usage q ∧
      vehicle_set.indexOf p ≤ vehicle_set.indexOf q)

instance (vehicle_set : List String) (usage : UsageMap) :
    DecidableRel (keyLe vehicle_set usage) := fun p q => by
  unfold keyLe
  infer_instance

instance (vehicle_set : List String) (usage : UsageMap) :
    IsTotal String (keyLe vehicle_set usage) where
  total p q := by
    rcases lt_trichotomy (usage_ratio usage p) (usage_ratio usage q) with h | h | h
    · exact Or.inl (Or.inl h)
    · rcases Nat.le_total (vehicle_set.indexOf p) (vehicle_set.indexOf q) with h2 | h2
      · exact Or.inl (Or.inr ⟨h, h2⟩)
      · exact Or.inr (Or.inr ⟨h.symm, h2⟩)
    · exact Or.inr (Or.inl h)

instance (vehicle_set : List String) (usage : UsageMap) :
    IsTrans String (keyLe vehicle_set usage) where
  trans p q r hpq hqr := by
    rcases hpq with h1 | ⟨h1, h1i⟩
    · rcases hqr with h2 | ⟨h2, _⟩
      · exact Or.inl (h1.trans h2)
      · exact Or.inl (h2 ▸ h1)
    · rcases hqr with h2 | ⟨h2, h2i⟩
      · exact Or.inl (h1 ▸ h2)
      · exact Or.inr ⟨h1.trans h2, h1i.trans h2i⟩

/-- Lines 27-28: `ordered = sorted(eligible, key=...)`; `pick = ordered[0]`.
Python's sort is stable, so the head is the first element with minimal key;
the `""` default is never reached because the loop guards `if not eligible`. -/
def pickOf (vehicle_set : List String) (usage : UsageMap) (eligible : List String) : String :=
  (List.insertionSort (keyLe vehicle_set usage) eligible).headD ""

/-- Lines 31-36: if the pick is a member of some vehicle group (first matching
group in dictionary order), drop every member of that group from `eligible`;
otherwise `eligible.remove(pick)` drops the first occurrence of the pick. -/
def stepEligible (vehicle_groups : List (String × List String)) (pick : String)
    (eligible : List String) : List String :=
  match vehicle_groups.find? (fun g => decide (pick ∈ g.2)) with
  | some g => eligible.filter (fun e => decide (e ∉ g.2))
  | none => eligible.erase pick

/-- The `for _ in range(num_needed)` loop of `select_vehicles_auto`
(lines 21-36), with the remaining iteration count as fuel: stop on empty
`eligible`, otherwise pick, record, update usage, shrink `eligible`. -/
def selectLoop (vehicle_set : List String) (vehicle_groups : List (String × List String)) :
    Nat → List String → UsageMap → List String × UsageMap
  | 0, _, usage => ([], usage)
  | _ + 1, [], usage => ([], usage)
  | fuel + 1, e :: es, usage =>
    let pick := pickOf vehicle_set usage (e :: es)
    let next := selectLoop vehicle_set vehicle_groups fuel
      (stepEligible vehicle_groups pick (e :: es))
      (update_usage [pick] (e :: es) usage)
    (pick :: next.1, next.2)

/-- Line 20: `eligible = [v for v in players_today if v in vehicle_set]` --
the attendees owning vehicles, in the order of `players_today`. -/
def initEligible (vehicle_set players_today : List String) : List String :=
  players_today.filter (fun v => decide (v ∈ vehicle_set))

/-- Embeds `select_vehicles_auto` (src/vehicle_management.py lines 18-37).
Returns the selected list together with the usage map after the call's
in-place mutations.  `num_needed` is an integer as in Python; `range` of a
non-positive integer performs no iterations. -/
def select_vehicles_auto (vehicle_set players_today : List String) (num_needed : Int)
    (usage : UsageMap) (vehicle_groups : List (String × List String)) :
    List String × UsageMap :=
  selectLoop vehicle_set vehicle_groups num_needed.toNat
    (initEligible vehicle_set players_today) usage

/-- Embeds the Manual-Select branch of `vehicle_management`
(src/vehicle_management.py lines 194-204): if the number of manually chosen
vehicles differs from `num_needed` the selection is empty and usage untouched,
otherwise `update_usage(manual_selected, eligible, usage)` runs with
`eligible = [v for v in players_today if v in vehicles]`. -/
def manual_select (players_today vehicles : List String) (num_needed : Int)
    (manual_selected : List String) (usage : UsageMap) : List String × UsageMap :=
  if (manual_selected.length : Int) ≠ num_needed then ([], usage)
  else (manual_selected, update_usage manual_selected (initEligible vehicles players_today) usage)

/-- One record of the selection history (lines 210-216; the generated free-text
message is presentation only and omitted). -/
structure HistRecord where
  date : String
  ground : String
  players_present : List String
  selected_vehicles : List String
deriving DecidableEq

/-- The Auto-Select button handler (lines 194-217): run the automatic
selection and, when it is non-empty, append the day's record to the history. -/
def select_and_record (vehicle_set players_today : List String) (num_needed : Int)
    (usage : UsageMap) (vehicle_groups : List (String × List String))
    (day ground : String) (history : List HistRecord) :
    List String × UsageMap × List HistRecord :=
  let r := select_vehicles_auto vehicle_set players_today num_needed usage vehicle_groups
  if r.1.isEmpty then (r.1, r.2, history)
  else (r.1, r.2, history ++ [⟨day, ground, players_today, r.1⟩])

/-- Embeds the Undo Last Entry handler (src/vehicle_management.py lines
101-105): `if history: history.pop()`.  The usage map is not touched by this
handler. -/
def undo_last (history : List HistRecord) (usage : UsageMap) :
    List HistRecord × UsageMap :=
  if history.isEmpty then (history, usage) else (history.dropLast, usage)

/-- The number of loop rounds of `selectLoop` in which driver `p` is a member
of the current `eligible` list, mirroring the recursion of `selectLoop`. -/
def eligRounds (vehicle_set : List String) (vehicle_groups : List (String × List String))
    (p : String) : Nat → List String → UsageMap → Nat
  | 0, _, _ => 0
  | _ + 1, [], _ => 0
  | fuel + 1, e :: es, usage =>
    (if p ∈ e :: es then 1 else 0) +
      eligRounds vehicle_set vehicle_groups p fuel
        (stepEligible vehicle_groups (pickOf vehicle_set usage (e :: es)) (e :: es))
        (update_usage [pickOf vehicle_set usage (e :: es)] (e :: es) usage)

/-- The eligible list as the spec's step 1 words it (spec section 4.1):
`[d in driverRoster if d in attendeesToday]`, i.e. in roster order.  Stated
only to compare with `initEligible`, which embeds the code. -/
def eligibleSpecOrder (vehicle_set players_today : List String) : List String :=
  vehicle_set.filter (fun d => decide (d ∈ players_today))

/-- No driver belongs to two carpool groups with different member sets: any
two entries of `vehicle_groups` sharing a member have the same members. -/
def GroupsNonOverlapping (vehicle_groups : List (String × List String)) : Prop :=
  ∀ g1 ∈ vehicle_groups, ∀ g2 ∈ vehicle_groups,
    ∀ x, x ∈ g1.2 → x ∈ g2.2 → ∀ y, (y ∈ g1.2 ↔ y ∈ g2.2)

/-! ### Dictionary lemmas -/

lemma getRec_cons (a : String × UsageRec) (t : UsageMap) (q : String) :
    getRec (a :: t) q = if a.1 = q then a.2 else getRec t q := by
  by_cases h : a.1 = q
  · rw [if_pos h]
    unfold getRec lookupRec
    rw [List.find?_cons_of_pos _ (by simpa using h)]
    rfl
  · rw [if_neg h]
    unfold getRec lookupRec
    rw [List.find?_cons_of_neg _ (by simpa using h)]

lemma getRec_nil (q : String) : getRec [] q = ⟨0, 0⟩ := rfl

lemma updAt_getRec_ne (t : UsageMap) (p q : String) (f : UsageRec → UsageRec)
    (h : q ≠ p) : getRec (updAt t p f) q = getRec t q := by
  induction t with
  | nil => rfl
  | cons a t ih =>
    simp only [updAt, List.map_cons]
    by_cases hap : a.1 = p
    · have haq : a.1 ≠ q := fun hh => h (hh ▸ hap)
      rw [show (if (a.1 == p) = true then (a.1, f a.2) else a) = (a.1, f a.2) from by
        simp [hap]]
      rw [getRec_cons, getRec_cons, if_neg haq, if_neg haq]
      simpa [updAt] using ih
    · rw [show (if (a.1 == p) = true then (a.1, f a.2) else a) = a from by simp [hap]]
      rw [getRec_cons, getRec_cons]
      by_cases haq : a.1 = q
      · rw [if_pos haq, if_pos haq]
      · rw [if_neg haq, if_neg haq]
        simpa [updAt] using ih

lemma ensureKey_cons_ne (a : String × UsageRec) (t : UsageMap) (p : String)
    (h : ¬ a.1 = p) : ensureKey (a :: t) p = a :: ensureKey t p := by
  have hk : hasKey (a :: t) p = hasKey t p := by
    simp [hasKey, List.any_cons, h]
  unfold ensureKey
  rw [hk]
  by_cases h2 : hasKey t p = true
  · rw [if_pos h2, if_pos h2]
  · rw [if_neg h2, if_neg h2, List.cons_append]

lemma step_updAt_getRec (u : UsageMap) (p q : String) (f : UsageRec → UsageRec) :
    getRec (updAt (ensureKey u p) p f) q =
      if q = p then f (getRec u q) else getRec u q := by
  induction u with
  | nil =>
    by_cases hq : q = p
    · subst hq
      simp [ensureKey, hasKey, updAt, getRec_cons, getRec_nil]
    · have hpq : p ≠ q := fun hh => hq hh.symm
      simp [ensureKey, hasKey, updAt, getRec_cons, getRec_nil, hq, hpq]
  | cons a t ih =>
    by_cases hap : a.1 = p
    · have hk : hasKey (a :: t) p = true := by simp [hasKey, List.any_cons, hap]
      rw [show ensureKey (a :: t) p = a :: t from by simp [ensureKey, hk]]
      by_cases hq : q = p
      · have haq : a.1 = q := hq ▸ hap
        simp [updAt, getRec_cons, hap, haq, hq]
      · have haq : a.1 ≠ q := fun hh => hq ((hh.symm.trans hap))
        rw [if_neg hq]
        simp only [updAt, List.map_cons]
        rw [show (if (a.1 == p) = true then (a.1, f a.2) else a) = (a.1, f a.2) from by
          simp [hap]]
        rw [getRec_cons, getRec_cons]
        simp only [haq, if_false]
        exact updAt_getRec_ne t p q f hq
    · rw [ensureKey_cons_ne a t p hap]
      simp only [updAt, List.map_cons]
      rw [show (if (a.1 == p) = true then (a.1, f a.2) else a) = a from by simp [hap]]
      by_cases haq : a.1 = q
      · have hq : q ≠ p := fun hh => hap (haq.symm ▸ hh ▸ rfl)
        simp [getRec_cons, haq, hq]
      · rw [getRec_cons, getRec_cons, if_neg haq, if_neg haq]
        simpa [updAt] using ih

lemma foldl_bumpUsed_getRec (sel : List String) (u : UsageMap) (q : String) :
    getRec (sel.foldl (fun acc p => bumpUsed (ensureKey acc p) p) u) q =
      ⟨(getRec u q).used + sel.count q, (getRec u q).present⟩ := by
  induction sel generalizing u with
  | nil => simp
  | cons p rest ih =>
    rw [List.foldl_cons, ih]
    rw [show bumpUsed (ensureKey u p) p = updAt (ensureKey u p) p
      (fun r => ⟨r.used + 1, r.present⟩) from rfl]
    rw [step_updAt_getRec]
    by_cases hq : q = p
    · subst hq
      simp [List.count_cons, UsageRec.mk.injEq]
      omega
    · simp [List.count_cons, hq, UsageRec.mk.injEq]

lemma foldl_bumpPresent_getRec (elig : List String) (u : UsageMap) (q : String) :
    getRec (elig.foldl (fun acc p => bumpPresent (ensureKey acc p) p) u) q =
      ⟨(getRec u q).used, (getRec u q).present + elig.count q⟩ := by
  induction elig generalizing u with
  | nil => simp
  | cons p rest ih =>
    rw [List.foldl_cons, ih]
    rw [show bumpPresent (ensureKey u p) p = updAt (ensureKey u p) p
      (fun r => ⟨r.used, r.present + 1⟩) from rfl]
    rw [step_updAt_getRec]
    by_cases hq : q = p
    · subst hq
      simp [List.count_cons, UsageRec.mk.injEq]
      omega
    · simp [List.count_cons, hq, UsageRec.mk.injEq]

lemma update_usage_getRec (sel elig : List String) (u : UsageMap) (q : String) :
    getRec (update_usage sel elig u) q =
      ⟨(getRec u q).used + sel.count q, (getRec u q).present + elig.count q⟩ := by
  unfold update_usage
  rw [foldl_bumpPresent_getRec, foldl_bumpUsed_getRec]

/-! ### Pick and loop lemmas -/

lemma keyLe_refl (vs : List String) (u : UsageMap) (p : String) : keyLe vs u p p :=
  Or.inr ⟨rfl, le_refl _⟩

lemma pickOf_mem (vs : List String) (u : UsageMap) (eligible : List String)
    (h : eligible ≠ []) : pickOf vs u eligible ∈ eligible := by
  unfold pickOf
  cases hs : List.insertionSort (keyLe vs u) eligible with
  | nil =>
    have hperm := List.perm_insertionSort (keyLe vs u) eligible
    rw [hs] at hperm
    exact absurd hperm.symm.eq_nil h
  | cons a t =>
    have ha : a ∈ List.insertionSort (keyLe vs u) eligible := by
      rw [hs]
      exact List.mem_cons_self a t
    exact (List.perm_insertionSort (keyLe vs u) eligible).subset ha

lemma pickOf_min (vs : List String) (u : UsageMap) (eligible : List String) (x : String)
    (hx : x ∈ eligible) : keyLe vs u (pickOf vs u eligible) x := by
  have hx2 : x ∈ List.insertionSort (keyLe vs u) eligible :=
    (List.perm_insertionSort (keyLe vs u) eligible).mem_iff.mpr hx
  have hsorted : List.Sorted (keyLe vs u) (List.insertionSort (keyLe vs u) eligible) :=
    List.sorted_insertionSort (keyLe vs u) eligible
  unfold pickOf
  cases hs : List.insertionSort (keyLe vs u) eligible with
  | nil =>
    rw [hs] at hx2
    exact absurd hx2 (List.not_mem_nil x)
  | cons a t =>
    rw [hs] at hx2 hsorted
    rcases List.mem_cons.mp hx2 with rfl | hxt
    · exact keyLe_refl vs u x
    · exact List.rel_of_sorted_cons hsorted x hxt

lemma stepEligible_sublist (groups : List (String × List String)) (pick : String)
    (eligible : List String) :
    List.Sublist (stepEligible groups pick eligible) eligible := by
  unfold stepEligible
  cases hfind : List.find? (fun g => decide (pick ∈ g.2)) groups with
  | none => exact List.erase_sublist pick eligible
  | some g => exact List.filter_sublist eligible

lemma pick_not_mem_stepEligible (groups : List (String × List String)) (pick : String)
    (eligible : List String) (hnd : eligible.Nodup) :
    pick ∉ stepEligible groups pick eligible := by
  unfold stepEligible
  cases hfind : List.find? (fun g => decide (pick ∈ g.2)) groups with
  | none =>
    intro hc
    exact ((hnd.mem_erase_iff).mp hc).1 rfl
  | some g =>
    intro hc
    have hg : pick ∈ g.2 := by simpa using List.find?_some hfind
    have hcond := (List.mem_filter.mp hc).2
    simp only [decide_eq_true_eq] at hcond
    exact hcond hg

lemma stepEligible_group_excluded (groups : List (String × List String)) (pick : String)
    (eligible : List String) (hcoh : GroupsNonOverlapping groups)
    (G : String × List String) (hG : G ∈ groups) (hpick : pick ∈ G.2)
    (y : String) (hy : y ∈ G.2) : y ∉ stepEligible groups pick eligible := by
  have hsome : (List.find? (fun g => decide (pick ∈ g.2)) groups).isSome := by
    rw [List.find?_isSome]
    exact ⟨G, hG, by simpa using hpick⟩
  rcases Option.isSome_iff_exists.mp hsome with ⟨g, hfind⟩
  have hgmem : g ∈ groups := List.mem_of_find?_eq_some hfind
  have hpg : pick ∈ g.2 := by simpa using List.find?_some hfind
  have hyg : y ∈ g.2 := (hcoh G hG g hgmem pick hpick hpg y).mp hy
  unfold stepEligible
  rw [hfind]
  intro hc
  have hcond := (List.mem_filter.mp hc).2
  simp only [decide_eq_true_eq] at hcond
  exact hcond hyg

lemma selectLoop_mem (vs : List String) (groups : List (String × List String)) :
    ∀ (fuel : Nat) (elig : List String) (u : UsageMap) (x : String),
      x ∈ (selectLoop vs groups fuel elig u).1 → x ∈ elig := by
  intro fuel
  induction fuel with
  | zero =>
    intro elig u x hx
    simp [selectLoop] at hx
  | succ n ih =>
    intro elig u x hx
    cases elig with
    | nil => simp [selectLoop] at hx
    | cons e es =>
      simp only [selectLoop] at hx
      rcases List.mem_cons.mp hx with rfl | hx2
      · exact pickOf_mem vs u (e :: es) (List.cons_ne_nil e es)
      · exact (stepEligible_sublist groups _ (e :: es)).subset (ih _ _ x hx2)

lemma selectLoop_nodup (vs : List String) (groups : List (String × List String)) :
    ∀ (fuel : Nat) (elig : List String) (u : UsageMap), elig.Nodup →
      ((selectLoop vs groups fuel elig u).1).Nodup := by
  intro fuel
  induction fuel with
  | zero =>
    intro elig u _
    simp [selectLoop]
  | succ n ih =>
    intro elig u hnd
    cases elig with
    | nil => simp [selectLoop]
    | cons e es =>
      simp only [selectLoop]
      rw [List.nodup_cons]
      refine ⟨fun hc => ?notmem, ih _ _ ((stepEligible_sublist groups _ (e :: es)).nodup hnd)⟩
      have hmem := selectLoop_mem vs groups n _ _ _ hc
      exact pick_not_mem_stepEligible groups _ (e :: es) hnd hmem

lemma selectLoop_counts (vs : List String) (groups : List (String × List String)) :
    ∀ (fuel : Nat) (elig : List String) (u : UsageMap), elig.Nodup → ∀ p,
      (getRec (selectLoop vs groups fuel elig u).2 p).present =
          (getRec u p).present + eligRounds vs groups p fuel elig u ∧
      (getRec (selectLoop vs groups fuel elig u).2 p).used =
          (getRec u p).used + ((selectLoop vs groups fuel elig u).1).count p := by
  intro fuel
  induction fuel with
  | zero =>
    intro elig u _ p
    simp [selectLoop, eligRounds]
  | succ n ih =>
    intro elig u hnd p
    cases elig with
    | nil => simp [selectLoop, eligRounds]
    | cons e es =>
      simp only [selectLoop, eligRounds]
      have hnd1 : (stepEligible groups (pickOf vs u (e :: es)) (e :: es)).Nodup :=
        (stepEligible_sublist groups _ (e :: es)).nodup hnd
      obtain ⟨ihp, ihu⟩ := ih (stepEligible groups (pickOf vs u (e :: es)) (e :: es))
        (update_usage [pickOf vs u (e :: es)] (e :: es) u) hnd1 p
      have hupd := update_usage_getRec [pickOf vs u (e :: es)] (e :: es) u p
      constructor
      · rw [ihp, hupd]
        dsimp only
        by_cases hp : p ∈ e :: es
        · rw [List.count_eq_one_of_mem hnd hp, if_pos hp]
          omega
        · rw [List.count_eq_zero_of_not_mem hp, if_neg hp]
          omega
      · rw [ihu, hupd]
        dsimp only
        by_cases hp : p = pickOf vs u (e :: es)
        · simp only [List.count_cons, List.count_nil, hp, beq_self_eq_true, if_true]
          omega
        · have hb : (pickOf vs u (e :: es) == p) = false := by
            simp [Ne.symm hp]
          simp only [List.count_cons, List.count_nil, hb, if_false]
          omega

lemma selectLoop_invariant (vs : List String) (groups : List (String × List String)) :
    ∀ (fuel : Nat) (elig : List String) (u : UsageMap),
      (∀ q, (getRec u q).used ≤ (getRec u q).present) → ∀ q,
      (getRec u q).used ≤ (getRec (selectLoop vs groups fuel elig u).2 q).used ∧
      (getRec (selectLoop vs groups fuel elig u).2 q).used ≤
        (getRec (selectLoop vs groups fuel elig u).2 q).present := by
  intro fuel
  induction fuel with
  | zero =>
    intro elig u hinv q
    exact ⟨le_refl _, hinv q⟩
  | succ n ih =>
    intro elig u hinv q
    cases elig with
    | nil => exact ⟨le_refl _, hinv q⟩
    | cons e es =>
      simp only [selectLoop]
      have hinv1 : ∀ r, (getRec (update_usage [pickOf vs u (e :: es)] (e :: es) u) r).used ≤
          (getRec (update_usage [pickOf vs u (e :: es)] (e :: es) u) r).present := by
        intro r
        rw [update_usage_getRec]
        dsimp only
        have hcnt : List.count r [pickOf vs u (e :: es)] ≤ List.count r (e :: es) := by
          by_cases hr : r = pickOf vs u (e :: es)
          · have h1 : List.count r [pickOf vs u (e :: es)] = 1 := by simp [hr]
            have h2 : 0 < List.count r (e :: es) :=
              List.count_pos_iff.mpr (hr ▸ pickOf_mem vs u (e :: es) (List.cons_ne_nil e es))
            omega
          · have h1 : List.count r [pickOf vs u (e :: es)] = 0 := by simp [hr]
            omega
        have := hinv r
        omega
      obtain ⟨ih1, ih2⟩ := ih (stepEligible groups (pickOf vs u (e :: es)) (e :: es))
        (update_usage [pickOf vs u (e :: es)] (e :: es) u) hinv1 q
      refine ⟨le_trans ?step ih1, ih2⟩
      rw [update_usage_getRec]
      dsimp only
      omega

lemma selectLoop_group_excl (vs : List String) (groups : List (String × List String))
    (hcoh : GroupsNonOverlapping groups) (G : String × List String) (hG : G ∈ groups)
    (d e2 : String) (hd : d ∈ G.2) (he : e2 ∈ G.2) (hne : d ≠ e2) :
    ∀ (fuel : Nat) (elig : List String) (u : UsageMap),
      d ∈ (selectLoop vs groups fuel elig u).1 →
        e2 ∉ (selectLoop vs groups fuel elig u).1 := by
  intro fuel
  induction fuel with
  | zero =>
    intro elig u hdmem
    simp [selectLoop] at hdmem
  | succ n ih =>
    intro elig u hdmem hemem
    cases elig with
    | nil => simp [selectLoop] at hdmem
    | cons a as =>
      simp only [selectLoop] at hdmem hemem
      rcases List.mem_cons.mp hdmem with hdp | hdrest
      · rcases List.mem_cons.mp hemem with hep | herest
        · exact hne (hdp.trans hep.symm)
        · have hmem : e2 ∈ stepEligible groups (pickOf vs u (a :: as)) (a :: as) :=
            selectLoop_mem vs groups n _ _ e2 herest
          exact stepEligible_group_excluded groups (pickOf vs u (a :: as)) (a :: as)
            hcoh G hG (hdp ▸ hd) e2 he hmem
      · rcases List.mem_cons.mp hemem with hep | herest
        · have hmem : d ∈ stepEligible groups (pickOf vs u (a :: as)) (a :: as) :=
            selectLoop_mem vs groups n _ _ d hdrest
          exact stepEligible_group_excluded groups (pickOf vs u (a :: as)) (a :: as)
            hcoh G hG (hep ▸ he) d hd hmem
        · exact ih _ _ hdrest herest

lemma selectLoop_groups_no_mem (vs : List String) (groups : List (String × List String))
    (hout : ∀ g ∈ groups, ∀ x, x ∈ g.2 → x ∉ vs) :
    ∀ (fuel : Nat) (elig : List String) (u : UsageMap), (∀ x ∈ elig, x ∈ vs) →
      selectLoop vs groups fuel elig u = selectLoop vs [] fuel elig u := by
  intro fuel
  induction fuel with
  | zero =>
    intro elig u _
    simp [selectLoop]
  | succ n ih =>
    intro elig u hsub
    cases elig with
    | nil => simp [selectLoop]
    | cons a as =>
      have hpickvs : pickOf vs u (a :: as) ∈ vs :=
        hsub _ (pickOf_mem vs u (a :: as) (List.cons_ne_nil a as))
      have hfind : List.find? (fun g => decide (pickOf vs u (a :: as) ∈ g.2)) groups
          = none := by
        rw [List.find?_eq_none]
        intro g hg
        simp only [decide_eq_true_eq]
        exact fun hmem => hout g hg _ hmem hpickvs
      have hstep : stepEligible groups (pickOf vs u (a :: as)) (a :: as)
          = stepEligible [] (pickOf vs u (a :: as)) (a :: as) := by
        unfold stepEligible
        rw [hfind]
        rfl
      simp only [selectLoop]
      rw [hstep, ih _ _ (fun x hx =>
        hsub x ((stepEligible_sublist [] _ (a :: as)).subset hx))]

lemma mem_initEligible (vs pt : List String) (x : String) :
    x ∈ initEligible vs pt ↔ x ∈ pt ∧ x ∈ vs := by
  unfold initEligible
  rw [List.mem_filter]
  simp

/-! ### Claim theorems -/

/-- C1: for `driverRoster=["A","B","C"]`, all three present, `numNeeded=2`, no
groups, and usage `A: 2/2, B: 0/1, C: 1/2`, the automatic selection returns
`["B","C"]`. -/
theorem select_example_two_of_three :
    (select_vehicles_auto ["A", "B", "C"] ["A", "B", "C"] 2
      [("A", ⟨2, 2⟩), ("B", ⟨0, 1⟩), ("C", ⟨1, 2⟩)] []).1 = ["B", "C"] := by
  decide

/-- C2: in every round the usage update increments `present` by one for every
driver in the current eligible list (not only the pick) and increments `used`
by one for the pick; consequently over a whole call a driver gains one
`present` increment for each round in which it is eligible (`eligRounds`). -/
theorem select_present_used_counts (vs : List String)
    (groups : List (String × List String)) (fuel : Nat) (elig : List String)
    (u : UsageMap) (pick p : String) (hnd : elig.Nodup) :
    (p ∈ elig →
      (getRec (update_usage [pick] elig u) p).present = (getRec u p).present + 1) ∧
    (getRec (update_usage [pick] elig u) pick).used = (getRec u pick).used + 1 ∧
    (getRec (selectLoop vs groups fuel elig u).2 p).present =
      (getRec u p).present + eligRounds vs groups p fuel elig u := by
  refine ⟨fun hp => ?hpres, ?hused, (selectLoop_counts vs groups fuel elig u hnd p).1⟩
  · rw [update_usage_getRec]
    dsimp only
    rw [List.count_eq_one_of_mem hnd hp]
  · rw [update_usage_getRec]
    dsimp only
    simp

/-- C2 witness. -/
theorem select_present_used_counts_witness :
    (getRec (selectLoop ["A"] [] 1 ["A"] []).2 "A").present =
      (getRec ([] : UsageMap) "A").present + eligRounds ["A"] [] "A" 1 ["A"] [] :=
  (select_present_used_counts ["A"] [] 1 ["A"] [] "A" "A" (by decide)).2.2

/-- C3: at any pick moment (any round of any call), if two eligible drivers
have the same usage ratio under the current usage map, the round's pick is
never the one with the larger roster index. -/
theorem select_tie_break (vs : List String) (groups : List (String × List String))
    (fuel : Nat) (elig : List String) (u : UsageMap) (d1 d2 : String)
    (h1 : d1 ∈ elig) (h2 : d2 ∈ elig)
    (hr : usage_ratio u d1 = usage_ratio u d2)
    (hidx : vs.indexOf d1 < vs.indexOf d2) :
    (selectLoop vs groups (fuel + 1) elig u).1.headD "" ≠ d2 := by
  cases elig with
  | nil => exact absurd h1 (List.not_mem_nil d1)
  | cons a as =>
    simp only [selectLoop, List.headD_cons]
    intro hc
    have hmin := pickOf_min vs u (a :: as) d1 h1
    rw [hc] at hmin
    rcases hmin with hlt | ⟨heq, hle⟩
    · rw [hr] at hlt
      exact lt_irrefl _ hlt
    · omega

/-- C3 witness. -/
theorem select_tie_break_witness :
    (selectLoop ["A", "B"] [] 1 ["A", "B"] []).1.headD "" ≠ "B" :=
  select_tie_break ["A", "B"] [] 0 ["A", "B"] [] "A" "B"
    (by decide) (by decide) (by decide) (by decide)

/-- C4 counterexample: with the overlapping groups
`g1 = ["D","X"]` and `g2 = ["D","Y"]`, the pick `D` belongs to `g2`, yet its
fellow `g2` member `Y` is also selected in the same call. -/
theorem select_group_overlap_cex :
    ("g2", ["D", "Y"]) ∈ [("g1", ["D", "X"]), ("g2", ["D", "Y"])] ∧
    "D" ∈ (["D", "Y"] : List String) ∧ "Y" ∈ (["D", "Y"] : List String) ∧
    ("D" : String) ≠ "Y" ∧
    "D" ∈ (select_vehicles_auto ["D", "X", "Y"] ["D", "X", "Y"] 2 []
      [("g1", ["D", "X"]), ("g2", ["D", "Y"])]).1 ∧
    "Y" ∈ (select_vehicles_auto ["D", "X", "Y"] ["D", "X", "Y"] 2 []
      [("g1", ["D", "X"]), ("g2", ["D", "Y"])]).1 := by
  decide

/-- C4 amended: provided no driver belongs to two groups with different member
sets, a selected driver excludes every other member of its group from the
selection of the same call. -/
theorem select_group_exclusive (vs pt : List String) (n : Int) (u : UsageMap)
    (groups : List (String × List String)) (hcoh : GroupsNonOverlapping groups)
    (G : String × List String) (hG : G ∈ groups) (d e2 : String)
    (hd : d ∈ G.2) (he : e2 ∈ G.2) (hne : d ≠ e2)
    (hdsel : d ∈ (select_vehicles_auto vs pt n u groups).1) :
    e2 ∉ (select_vehicles_auto vs pt n u groups).1 := by
  unfold select_vehicles_auto at hdsel ⊢
  exact selectLoop_group_excl vs groups hcoh G hG d e2 hd he hne _ _ _ hdsel

/-- C4 witness. -/
theorem select_group_exclusive_witness :
    "B" ∉ (select_vehicles_auto ["A", "B", "C"] ["A", "B", "C"] 2 []
      [("g1", ["A", "B"])]).1 :=
  select_group_exclusive ["A", "B", "C"] ["A", "B", "C"] 2 [] [("g1", ["A", "B"])]
    (by
      intro g1 h1 g2 h2 x hx1 hx2 y
      simp only [List.mem_singleton] at h1 h2
      rw [h1, h2])
    ("g1", ["A", "B"]) (by decide) "A" "B" (by decide) (by decide) (by decide)
    (by decide)

/-- C5 counterexample: a manual override selecting a driver who is not present
today (`players_today = []`) increments `used` without `present`, so the
invariant `used <= present` fails even though it held before the call. -/
theorem manual_breaks_invariant_cex :
    (∀ q, (getRec ([] : UsageMap) q).used ≤ (getRec ([] : UsageMap) q).present) ∧
    ¬ ((getRec (manual_select [] ["A"] 1 ["A"] []).2 "A").used ≤
        (getRec (manual_select [] ["A"] 1 ["A"] []).2 "A").present) := by
  refine ⟨fun _ => Nat.le_refl 0, ?hfail⟩
  decide

/-- C5 amended: automatic selection preserves `used <= present` and never
decreases `used`; the manual override does the same provided every manually
selected driver is among the eligible drivers (with multiplicity). -/
theorem usage_invariant_preserved (vs pt : List String) (n : Int) (u : UsageMap)
    (groups : List (String × List String)) (ms : List String)
    (hinv : ∀ q, (getRec u q).used ≤ (getRec u q).present)
    (hms : ∀ q, ms.count q ≤ (initEligible vs pt).count q) :
    (∀ q, (getRec u q).used ≤ (getRec (select_vehicles_auto vs pt n u groups).2 q).used ∧
      (getRec (select_vehicles_auto vs pt n u groups).2 q).used ≤
        (getRec (select_vehicles_auto vs pt n u groups).2 q).present) ∧
    (∀ q, (getRec u q).used ≤ (getRec (manual_select pt vs n ms u).2 q).used ∧
      (getRec (manual_select pt vs n ms u).2 q).used ≤
        (getRec (manual_select pt vs n ms u).2 q).present) := by
  constructor
  · intro q
    exact selectLoop_invariant vs groups n.toNat (initEligible vs pt) u hinv q
  · intro q
    unfold manual_select
    by_cases hlen : (ms.length : Int) ≠ n
    · rw [if_pos hlen]
      exact ⟨le_refl _, hinv q⟩
    · rw [if_neg hlen]
      dsimp only
      rw [update_usage_getRec]
      dsimp only
      have h1 := hms q
      have h2 := hinv q
      omega

/-- C5 witness. -/
theorem usage_invariant_preserved_witness :
    (getRec (select_vehicles_auto ["A"] ["A"] 1 [] []).2 "A").used ≤
      (getRec (select_vehicles_auto ["A"] ["A"] 1 [] []).2 "A").present :=
  ((usage_invariant_preserved ["A"] ["A"] 1 [] [] []
    (fun _ => Nat.le_refl 0) (fun _ => Nat.zero_le _)).1 "A").2

/-- C6: when no attendee today is in the roster the eligible list is empty,
and the call returns an empty selection with the usage map unchanged. -/
theorem select_no_eligible_frame (vs pt : List String) (n : Int) (u : UsageMap)
    (groups : List (String × List String)) (h : ∀ v ∈ pt, v ∉ vs) :
    select_vehicles_auto vs pt n u groups = ([], u) := by
  have helig : initEligible vs pt = [] := by
    rw [initEligible, List.filter_eq_nil_iff]
    intro a ha
    simp only [decide_eq_true_eq]
    exact h a ha
  unfold select_vehicles_auto
  rw [helig]
  cases n.toNat with
  | zero => rfl
  | succ m => rfl

/-- C6 witness. -/
theorem select_no_eligible_frame_witness :
    select_vehicles_auto ["A"] ["B"] 1 [("A", ⟨1, 2⟩)] [] = ([], [("A", ⟨1, 2⟩)]) :=
  select_no_eligible_frame ["A"] ["B"] 1 [("A", ⟨1, 2⟩)] [] (by decide)

/-- C7 counterexample: selecting `"A"` (usage becomes `A: 1/1`) and undoing
immediately leaves the usage map unchanged, hence not equal to its
pre-selection value (the empty map): the undo handler performs no decrements. -/
theorem undo_not_restore_cex :
    (undo_last (select_and_record ["A"] ["A"] 1 [] [] "2024-01-01" "G" []).2.2
      (select_and_record ["A"] ["A"] 1 [] [] "2024-01-01" "G" []).2.1).2
      ≠ ([] : UsageMap) := by
  decide

/-- C7 amended: the Undo Last Entry handler removes the last history record
and returns the usage map unchanged; no `used` or `present` counter is
decremented, so usage is not restored to its pre-selection values. -/
theorem undo_pops_history_only (history : List HistRecord) (u : UsageMap) :
    (undo_last history u).2 = u ∧ (undo_last history u).1 = history.dropLast := by
  unfold undo_last
  by_cases h : history.isEmpty
  · rw [if_pos h]
    refine ⟨rfl, ?hnil⟩
    cases history with
    | nil => rfl
    | cons a t => simp [List.isEmpty] at h
  · rw [if_neg h]
    exact ⟨rfl, rfl⟩

/-- C8 counterexample: `select_vehicles_auto` performs no validation -- with
`numNeeded = 0` or `numNeeded = -1` it returns the ordinary empty result with
usage unchanged, and a group containing the unknown driver `"B"` is processed
without any error. -/
theorem select_accepts_invalid_cex :
    select_vehicles_auto ["A"] ["A"] 0 [] [] = ([], []) ∧
    select_vehicles_auto ["A"] ["A"] (-1) [] [] = ([], []) ∧
    (select_vehicles_auto ["A"] ["A"] 1 [] [("g", ["B", "A"])]).1 = ["A"] := by
  decide

/-- C8 amended: the core performs no input validation: `numNeeded <= 0` yields
an empty selection with usage unchanged rather than an error, and groups whose
members all lie outside the roster are silently ignored (the call behaves as
if no groups were given). -/
theorem select_no_validation (vs pt : List String) (u : UsageMap)
    (groups : List (String × List String)) (n : Int) (hn : n ≤ 0)
    (hout : ∀ g ∈ groups, ∀ x, x ∈ g.2 → x ∉ vs) :
    select_vehicles_auto vs pt n u groups = ([], u) ∧
    (∀ m : Int, select_vehicles_auto vs pt m u groups =
      select_vehicles_auto vs pt m u []) := by
  constructor
  · unfold select_vehicles_auto
    rw [Int.toNat_eq_zero.mpr hn]
    rfl
  · intro m
    unfold select_vehicles_auto
    exact selectLoop_groups_no_mem vs groups hout m.toNat (initEligible vs pt) u
      (fun x hx => ((mem_initEligible vs pt x).mp hx).2)

/-- C8 witness. -/
theorem select_no_validation_witness :
    select_vehicles_auto ["A"] ["A"] 0 [] [("g", ["B"])] = ([], []) :=
  (select_no_validation ["A"] ["A"] [] [("g", ["B"])] 0 (by decide) (by decide)).1

/-- C9 counterexample: the code builds the eligible list in the order of
`players_today`, not in roster order as the claim states: for roster
`["A","B"]` and attendance `["B","A"]` the two orders differ. -/
theorem eligible_order_cex :
    initEligible ["A", "B"] ["B", "A"] ≠ eligibleSpecOrder ["A", "B"] ["B", "A"] := by
  decide

/-- C9 amended: the eligible list of step 1 is the sublist of `players_today`
(in attendance order) consisting of the drivers in the roster; its members are
exactly the attendees who are in the roster. -/
theorem eligible_attendee_order (vs pt : List String) :
    List.Sublist (initEligible vs pt) pt ∧
    (∀ x, x ∈ initEligible vs pt ↔ x ∈ pt ∧ x ∈ vs) :=
  ⟨List.filter_sublist pt, fun x => mem_initEligible vs pt x⟩

/-- C10: for attendee lists without duplicates (attendance is a set), the
selected list contains no driver twice: every round removes the pick (alone or
with its whole group) from the eligible pool. -/
theorem select_nodup (vs pt : List String) (n : Int) (u : UsageMap)
    (groups : List (String × List String)) (hnd : pt.Nodup) :
    ((select_vehicles_auto vs pt n u groups).1).Nodup := by
  unfold select_vehicles_auto
  exact selectLoop_nodup vs groups n.toNat (initEligible vs pt) u (hnd.filter _)

/-- C10 witness. -/
theorem select_nodup_witness :
    ((select_vehicles_auto ["A", "B"] ["A", "B"] 2 [] []).1).Nodup :=
  select_nodup ["A", "B"] ["A", "B"] 2 [] [] (by decide)
